import Mathlib

/-!
Shallow embedding of the Groth16 verification engine
(src/groth16/verifier.rs) and of the interfaces it consumes.

The elliptic-curve/pairing algebra (the `Engine` trait, fields, groups,
miller loop, final exponentiation) is an external library from the point of
view of this repository; it is embedded as an abstract bundle of carrier
types and operations (`Engine` below).  Affine and projective coordinate
representations of a curve point are identified: the embedding works with
the point a representation denotes, so conversions such as `into_affine`
and `into()` are identities and are not written.  The multiscalar utilities
(`utils::precompute_fixed_window`, `utils::par_multiscalar`, `WINDOW_SIZE`)
and the `multiexp` routine are code of this repository that is not part of
the given source; they are modelled from the spec, as marked on each
definition.  Rust panics (index out of bounds, `unwrap`, `assert!`,
`panic!`) are modelled by `Option`: a `none` result is an aborted call.
Machine integers (`u64` limbs, `u128` samples) are `Nat` with explicit
`% 2 ^ 64` / `% 2 ^ 128` where the code truncates.

Each verifier entry point returns, besides its value, a list of
`VerifierEvent`s: the observable work it performed, in source order.  This
makes "returns before doing any cryptographic work" claims statable.
-/

deriving instance DecidableEq for Except

namespace Groth16

/-- Fallible map over a list, aborting at the first failure (a sequential
Rust loop whose body can panic). -/
def mapOpt (f : α → Option β) : List α → Option (List β)
  | [] => some []
  | a :: as =>
    match f a, mapOpt f as with
    | some b, some bs => some (b :: bs)
    | _, _ => none

/-- Fallible left fold, aborting at the first failure. -/
def foldlOpt (f : β → α → Option β) : β → List α → Option β
  | b, [] => some b
  | b, a :: as =>
    match f b a with
    | none => none
    | some b2 => foldlOpt f b2 as

/-- Value of a little-endian list of 64-bit limbs, as used by the
`PrimeField::Repr` fixed-width scalar encoding. -/
def reprToNat : List Nat → Nat
  | [] => 0
  | l :: ls => l + 2 ^ 64 * reprToNat ls

/-- Little-endian 64-bit limb decomposition of a natural number into a
fixed number of limbs. -/
def natToLimbs : Nat → Nat → List Nat
  | 0, _ => []
  | k + 1, n => n % 2 ^ 64 :: natToLimbs k (n / 2 ^ 64)

/-- ASCII-adequate embedding of Rust's `str::to_lowercase`. -/
def toLowerStr (s : String) : String := ⟨s.data.map Char.toLower⟩

/-- Fuel-driven helper for `ceilLog2`. -/
def ceilLog2Aux : Nat → Nat → Nat
  | 0, _ => 0
  | fuel + 1, n => if n ≤ 1 then 0 else ceilLog2Aux fuel ((n + 1) / 2) + 1

/-- Exact ceiling of the base-2 logarithm over `Nat`, with
`ceilLog2 0 = 0` (matching the `-inf`-to-`0` saturating cast at the one
call site that can receive `0`). -/
def ceilLog2 (n : Nat) : Nat := ceilLog2Aux n n

/-- Fuel-driven helper for `f32Shift`. -/
def f32ShiftAux : Nat → Nat → Nat
  | 0, _ => 0
  | fuel + 1, n => if n < 2 ^ 24 then 0 else f32ShiftAux fuel (n / 2) + 1

/-- Exponent of the power of two a natural number is scaled down by when
rounded to `f32`'s 24-bit significand: `0` for `n < 2 ^ 24`, else the bit
length of `n` minus 24. -/
def f32Shift (n : Nat) : Nat := f32ShiftAux n n

/-- Value of `(n as f32)` for a `usize` value `n`: the IEEE-754
round-to-nearest, ties-to-even rounding of `n` to a 24-bit significand.
A 64-bit value is far below the `f32` overflow threshold, so no infinity
case arises. -/
def f32RoundNat (n : Nat) : Nat :=
  let e := f32Shift n
  if e = 0 then n
  else
    let q := n / 2 ^ e
    let r := n % 2 ^ e
    let half := 2 ^ (e - 1)
    let q2 :=
      if r < half then q
      else if half < r then q + 1
      else if q % 2 = 0 then q else q + 1
    q2 * 2 ^ e

/-- Abstract pairing engine: the carrier types and operations of the
external algebra library (`crate::bls::Engine`, `ff`, `groupy`) that the
verifier uses.  `frToNat`-style canonical integer semantics of a scalar
is derived from `frIntoRepr` below.  `g1Mul` is scalar multiplication by
the canonical integer of a scalar (`CurveAffine::mul` /
`CurveProjective::mul_assign` take the scalar through its repr), `fqkPow`
likewise for `Fqk::pow`.  `finalExp` returns `none` where the library's
`final_exponentiation` returns `None` (the caller unwraps, i.e. panics). -/
structure Engine : Type 1 where
  Fr : Type
  G1 : Type
  G2 : Type
  G1P : Type
  G2P : Type
  Fqk : Type
  numLimbs : Nat
  order : Nat
  frZero : Fr
  frAdd : Fr → Fr → Fr
  frMul : Fr → Fr → Fr
  frNeg : Fr → Fr
  frOfNat : Nat → Fr
  frIntoRepr : Fr → List Nat
  frFromRepr : List Nat → Option Fr
  g1Zero : G1
  g1Add : G1 → G1 → G1
  g1Mul : G1 → Nat → G1
  g2Neg : G2 → G2
  g1Prepare : G1 → G1P
  g2Prepare : G2 → G2P
  fqkMul : Fqk → Fqk → Fqk
  fqkPow : Fqk → Nat → Fqk
  pairing : G1 → G2 → Fqk
  millerLoop : List (G1P × G2P) → Fqk
  finalExp : Fqk → Option Fqk

/-- Canonical integer value of a scalar: the value of its fixed-width
repr (`PrimeField::into_repr`). -/
def Engine.frToNat (E : Engine) (x : E.Fr) : Nat := reprToNat (E.frIntoRepr x)

/-- Modelled from the spec: the Multiscalar Engine's precomputation
output (`utils::MultiscalarPrecomp`, not part of the given source).  For
a fixed base-point set it holds, for each point, all window-sized
multiples for the chosen bit-window width. -/
structure MultiscalarPrecomp (G1 : Type) where
  windowSize : Nat
  tables : List (List G1)

/-- Modelled from the spec: the tunable window-width constant
`utils::WINDOW_SIZE` (not part of the given source). -/
def WINDOW_SIZE : Nat := 8

/-- Modelled from the spec: `utils::precompute_fixed_window` (not part of
the given source) — for each base point, precompute the multiples
`0·P, 1·P, …, (2 ^ w - 1)·P` for window width `w`. -/
def precompute_fixed_window (E : Engine) (points : List E.G1) (w : Nat) :
    MultiscalarPrecomp E.G1 :=
  ⟨w, points.map fun p => (List.range (2 ^ w)).map fun d => E.g1Mul p d⟩

/-- Modelled from the spec: `MultiscalarPrecomp::at_point` (not part of
the given source) — the sub-table starting at base point `i`. -/
def MultiscalarPrecomp.at_point (t : MultiscalarPrecomp G1) (i : Nat) :
    MultiscalarPrecomp G1 :=
  ⟨t.windowSize, t.tables.drop i⟩

/-- Left fold of `n` group elements `f 0, …, f (n-1)`, the private-
accumulator accumulation pattern used throughout. -/
def sumG1 (E : Engine) (f : Nat → E.G1) (n : Nat) : E.G1 :=
  (List.range n).foldl (fun acc i => E.g1Add acc (f i)) E.g1Zero

/-- Iterated point doubling, `k` times. -/
def doubleN (E : Engine) : Nat → E.G1 → E.G1
  | 0, x => x
  | k + 1, x => doubleN E k (E.g1Add x x)

/-- Digit of scalar `s` in window `j` for window width `w`. -/
def windowDigit (w j s : Nat) : Nat := s / 2 ^ (w * j) % 2 ^ w

/-- Bucket-table lookup: the table entry of base point `i` at digit `d`. -/
def msTableGet (E : Engine) (t : MultiscalarPrecomp E.G1) (i d : Nat) : E.G1 :=
  (t.tables.getD i []).getD d E.g1Zero

/-- Partial sum of one window `j`: for every scalar, its digit in that
window is looked up in the precomputed bucket table and accumulated. -/
def windowPartial (E : Engine) (t : MultiscalarPrecomp E.G1)
    (scalars : List Nat) (numPoints j : Nat) : E.G1 :=
  sumG1 E (fun i => msTableGet E t i (windowDigit t.windowSize j (scalars.getD i 0))) numPoints

/-- Horner-style combination of the window partial sums `W lo, …,
W (lo + n - 1)`, most-significant window first, with `w` doublings
between consecutive windows. -/
def hornerWin (E : Engine) (W : Nat → E.G1) (w : Nat) (lo : Nat) : Nat → E.G1
  | 0 => E.g1Zero
  | n + 1 => E.g1Add (doubleN E w (hornerWin E W w (lo + 1) n)) (W lo)

/-- Fuel-driven helper for `chunkLens`. -/
def chunkLensAux : Nat → Nat → Nat → List Nat
  | 0, _, _ => []
  | fuel + 1, m, n =>
    if n = 0 then [] else if n ≤ m then [n] else m :: chunkLensAux fuel m (n - m)

/-- Lengths of the per-thread contiguous chunks when `n` windows are
split into chunks of at most `m` windows. -/
def chunkLens (m n : Nat) : List Nat := chunkLensAux n m n

/-- Most-significant-chunk-first combination of the per-thread partial
sums, with `w · len` doublings between consecutive chunks. -/
def combineChunks (E : Engine) (W : Nat → E.G1) (w : Nat) (lo : Nat) :
    List Nat → E.G1
  | [] => E.g1Zero
  | len :: rest =>
    E.g1Add (doubleN E (w * len) (combineChunks E W w (lo + len) rest))
      (hornerWin E W w lo len)

/-- Modelled from the spec: `utils::par_multiscalar` (not part of the
given source).  The scalar bit-range is partitioned into per-thread
chunks of whole windows; each thread scans its chunk's digits of every
scalar, accumulating window partial sums from the precomputed bucket
table into a private partial sum; the partial sums are combined
most-significant-chunk-first with doubling between chunks. -/
def par_multiscalar (E : Engine) (nthreads : Nat) (scalars : List Nat)
    (precomp : MultiscalarPrecomp E.G1) (numPoints nbits : Nat) : E.G1 :=
  let w := precomp.windowSize
  let nw := (nbits + w - 1) / w
  let m := (nw + nthreads - 1) / nthreads
  combineChunks E (fun j => windowPartial E precomp scalars numPoints j) w 0
    (chunkLens m nw)

/-- Modelled from the spec: the `multiexp` routine of the batch path (not
part of the given source) — the weighted sum of the given points by the
given scalar reprs.  The kernel argument of the source only selects where
the work runs, never the result, so it does not appear. -/
def multiexp (E : Engine) (points : List E.G1) (scalars : List Nat) : E.G1 :=
  sumG1 E (fun i => E.g1Mul (points.getD i E.g1Zero) (scalars.getD i 0))
    (min points.length scalars.length)

/-- Verifying key (`groth16::VerifyingKey`), restricted to the fields the
verifier reads. -/
structure VerifyingKey (E : Engine) where
  alpha_g1 : E.G1
  beta_g2 : E.G2
  gamma_g2 : E.G2
  delta_g2 : E.G2
  ic : List E.G1

/-- Proof element triple (`groth16::Proof`). -/
structure Proof (E : Engine) where
  a : E.G1
  b : E.G2
  c : E.G1

/-- Prepared verifying key (`groth16::PreparedVerifyingKey`). -/
structure PreparedVerifyingKey (E : Engine) where
  alpha_g1_beta_g2 : E.Fqk
  neg_gamma_g2 : E.G2P
  neg_delta_g2 : E.G2P
  gamma_g2 : E.G2P
  delta_g2 : E.G2P
  ic : List E.G1
  multiscalar : MultiscalarPrecomp E.G1

/-- Error taxonomy of the verifier: only the variant this file can
produce is modelled (`SynthesisError::MalformedVerifyingKey`). -/
inductive SynthesisError
  | MalformedVerifyingKey
deriving DecidableEq

/-- Observable work steps of a verification call, in source order.  The
`panic…` constructors are process aborts. -/
inductive VerifierEvent
  | returnMalformed
  | sampleRandomness
  | scalarArith
  | fetchKernel
  | panicInvalidDevice
  | panicIndexOutOfBounds
  | panicSample
  | multiexpWork
  | multiscalarWork
  | millerLoopWork
  | finalExpWork
deriving DecidableEq

/-- Embedding of `prepare_verifying_key` (verifier.rs lines 13-30). -/
def prepare_verifying_key (E : Engine) (vk : VerifyingKey E) :
    PreparedVerifyingKey E :=
  ⟨E.pairing vk.alpha_g1 vk.beta_g2,
   E.g2Prepare (E.g2Neg vk.gamma_g2),
   E.g2Prepare (E.g2Neg vk.delta_g2),
   E.g2Prepare vk.gamma_g2,
   E.g2Prepare vk.delta_g2,
   vk.ic,
   precompute_fixed_window E vk.ic WINDOW_SIZE⟩

/-- Hardware multiexp kernel handle (`gpu::LockedMultiexpKernel`): only
its construction arguments are in scope here. -/
structure LockedMultiexpKernel where
  log_d : Nat
  priority : Bool
deriving DecidableEq

/-- Embedding of `get_verifier_kernel` (verifier.rs lines 213-226).
`cfg` is the resolved value of the `BELLMAN_VERIFIER` environment
variable (`"auto"` when unset).  The outer `none` is the `panic!` on an
unrecognized value; `some none` is the CPU path.  The kernel size models
`(pi_num as f32).log2().ceil() as usize`: the `usize`-to-`f32` cast is
the exact ties-to-even rounding `f32RoundNat`, and the logarithm and
ceiling of the rounded value are computed exactly.  Rust leaves the
precision of `f32::log2` unspecified, so on very large counts (above
roughly `2 ^ 20`, where the true logarithm of a representable count can
lie within a floating-point rounding step of an integer) the program's
size may fall below even this model; theorems therefore assert the size
only where the whole pipeline is exact. -/
def get_verifier_kernel (cfg : String) (pi_num : Nat) :
    Option (Option LockedMultiexpKernel) :=
  let s := toLowerStr cfg
  if s = "gpu" then some (some ⟨ceilLog2 (f32RoundNat pi_num), false⟩)
  else if s = "cpu" then some none
  else if s = "auto" then some none
  else none

/-- Embedding of `verify_proof` (verifier.rs lines 32-93).  `nthreads`
models `utils::POOL.current_num_threads()`.  The `pvk.ic.getD 0` lookup
embeds `pvk.ic[0]`, in bounds in this branch because the length check
guarantees `ic` is nonempty. -/
def verify_proof (E : Engine) [DecidableEq E.Fqk] (nthreads : Nat)
    (pvk : PreparedVerifyingKey E) (proof : Proof E)
    (public_inputs : List E.Fr) :
    List VerifierEvent × Option (Except SynthesisError Bool) :=
  if public_inputs.length + 1 ≠ pvk.ic.length then
    ([VerifierEvent.returnMalformed],
     some (Except.error SynthesisError.MalformedVerifyingKey))
  else
    let num_inputs := public_inputs.length
    let ml_a_b := E.millerLoop [(E.g1Prepare proof.a, E.g2Prepare proof.b)]
    let ml_all := E.millerLoop [(E.g1Prepare proof.c, pvk.neg_delta_g2)]
    let subset := pvk.multiscalar.at_point 1
    let public_inputs_repr := public_inputs.map fun s => reprToNat (E.frIntoRepr s)
    let acc0 := par_multiscalar E nthreads public_inputs_repr subset
      num_inputs (64 * E.numLimbs)
    let acc := E.g1Add acc0 (pvk.ic.getD 0 E.g1Zero)
    let ml_acc := E.millerLoop [(E.g1Prepare acc, pvk.neg_gamma_g2)]
    let ml_all := E.fqkMul ml_all ml_a_b
    let ml_all := E.fqkMul ml_all ml_acc
    ([VerifierEvent.millerLoopWork, VerifierEvent.millerLoopWork,
      VerifierEvent.multiscalarWork, VerifierEvent.millerLoopWork,
      VerifierEvent.finalExpWork],
     (E.finalExp ml_all).map fun f =>
       Except.ok (decide (f = pvk.alpha_g1_beta_g2)))

/-- Accumulated public-input point as the spec writes it:
`Acc = ic[0] + Σ_i public_input_i · ic[i+1]`. -/
def verifyAcc (E : Engine) (pvk : PreparedVerifyingKey E)
    (public_inputs : List E.Fr) : E.G1 :=
  E.g1Add (pvk.ic.getD 0 E.g1Zero)
    (sumG1 E
      (fun i => E.g1Mul (pvk.ic.getD (i + 1) E.g1Zero)
        (E.frToNat (public_inputs.getD i E.frZero)))
      public_inputs.length)

/-- Combined miller-loop product as the spec writes it:
`miller_loop(A, B) · miller_loop(C, -delta) · miller_loop(Acc, -gamma)`. -/
def verifyCombo (E : Engine) (pvk : PreparedVerifyingKey E) (proof : Proof E)
    (public_inputs : List E.Fr) : E.Fqk :=
  E.fqkMul
    (E.fqkMul (E.millerLoop [(E.g1Prepare proof.a, E.g2Prepare proof.b)])
      (E.millerLoop [(E.g1Prepare proof.c, pvk.neg_delta_g2)]))
    (E.millerLoop [(E.g1Prepare (verifyAcc E pvk public_inputs), pvk.neg_gamma_g2)])

/-- Embedding of the per-proof random-coefficient sampling
(verifier.rs lines 116-127): a 128-bit draw `t` is written into the two
low 64-bit limbs of a zero repr and read back through `from_repr`.  The
`numLimbs ≤ 1` guard is the `assert!(el_ref.len() > 1)`; `none` is the
panic of the assert or of `from_repr(el).unwrap()`. -/
def sampleFr (E : Engine) (t : Nat) : Option E.Fr :=
  if E.numLimbs ≤ 1 then none
  else
    let el := ((E.frIntoRepr E.frZero).set 0 (t % 2 ^ 64)).set 1 (t / 2 ^ 64 % 2 ^ 64)
    E.frFromRepr el

/-- The `n` random coefficients of a batch, drawn from the injected
randomness stream `ts` (the successive `rng.gen::<u128>()` results). -/
def batchCoeffs (E : Engine) (ts : Nat → Nat) (n : Nat) : Option (List E.Fr) :=
  mapOpt (fun j => sampleFr E (ts j)) (List.range n)

/-- Embedding of one `pi_scalars` entry (verifier.rs lines 138-147):
`pi_i = Σ_j r_j · public_inputs[j][i]`, with the unguarded indexing of
`public_inputs[j][i]` kept fallible. -/
def piScalarOpt (E : Engine) (r : List E.Fr)
    (public_inputs : List (List E.Fr)) (proof_num i : Nat) : Option E.Fr :=
  foldlOpt
    (fun pi j =>
      match public_inputs[j]? with
      | none => none
      | some pubj =>
        match pubj[i]? with
        | none => none
        | some aji => some (E.frAdd pi (E.frMul (r.getD j E.frZero) aji)))
    E.frZero (List.range proof_num)

/-- Embedding of `pi_scalars` (verifier.rs lines 136-148), already taken
through `into_repr` as the source does. -/
def piScalarsOpt (E : Engine) (r : List E.Fr)
    (public_inputs : List (List E.Fr)) (pi_num proof_num : Nat) :
    Option (List Nat) :=
  mapOpt (fun i => (piScalarOpt E r public_inputs proof_num i).map E.frToNat)
    (List.range pi_num)

/-- Sum of the random coefficients (`sum_r`, verifier.rs lines 130-133). -/
def batchSumR (E : Engine) (r : List E.Fr) : E.Fr := r.foldl E.frAdd E.frZero

/-- Total form of the `pi_i` combination, defined when every index is in
bounds: `pi_i = Σ_j r_j · public_inputs[j][i]`. -/
def batchPi (E : Engine) (r : List E.Fr) (public_inputs : List (List E.Fr))
    (i : Nat) : E.Fr :=
  (List.range r.length).foldl
    (fun pi j =>
      E.frAdd pi (E.frMul (r.getD j E.frZero) ((public_inputs.getD j []).getD i E.frZero)))
    E.frZero

/-- Accumulated `Acc_Delta = Σ_j r_j · proof_j.c`
(verifier.rs lines 174-179). -/
def batchAccDelta (E : Engine) (r : List E.Fr) (proofs : List (Proof E)) : E.G1 :=
  (r.zip proofs).foldl
    (fun acc rp => E.g1Add acc (E.g1Mul rp.2.c (E.frToNat rp.1))) E.g1Zero

/-- Accumulated `Acc_Gamma = ic[0] · sum_r + multiexp(ic[1..], pi)`
(verifier.rs lines 154-165). -/
def batchAccGamma (E : Engine) (pvk : PreparedVerifyingKey E)
    (r : List E.Fr) (public_inputs : List (List E.Fr)) : E.G1 :=
  E.g1Add (E.g1Mul (pvk.ic.getD 0 E.g1Zero) (E.frToNat (batchSumR E r)))
    (multiexp E (pvk.ic.drop 1)
      ((List.range (pvk.ic.length - 1)).map fun i =>
        E.frToNat (batchPi E r public_inputs i)))

/-- Reference value `Acc_Y = alpha_beta_pairing ^ (-sum_r)`
(verifier.rs lines 167-171). -/
def batchAccY (E : Engine) (pvk : PreparedVerifyingKey E) (r : List E.Fr) :
    E.Fqk :=
  E.fqkPow pvk.alpha_g1_beta_g2 (E.frToNat (E.frNeg (batchSumR E r)))

/-- Operand list of the combined miller loop (verifier.rs lines
181-207): the pairs `(r_j · proof_j.a, -proof_j.b)`, then
`(Acc_Delta, delta)`, then `(Acc_Gamma, gamma)`. -/
def batchParts (E : Engine) (pvk : PreparedVerifyingKey E)
    (r : List E.Fr) (proofs : List (Proof E))
    (public_inputs : List (List E.Fr)) : List (E.G1P × E.G2P) :=
  (r.zip proofs).map
    (fun rp =>
      (E.g1Prepare (E.g1Mul rp.2.a (E.frToNat rp.1)),
       E.g2Prepare (E.g2Neg rp.2.b)))
  ++ [(E.g1Prepare (batchAccDelta E r proofs), pvk.delta_g2),
      (E.g1Prepare (batchAccGamma E pvk r public_inputs), pvk.gamma_g2)]

/-- Embedding of `verify_proofs_batch` (verifier.rs lines 96-211).
`cfg` is the resolved `BELLMAN_VERIFIER` value, `ts` the injected
randomness stream.  The Rust `multiexp` future is awaited immediately at
its only use, so no future appears here. -/
def verify_proofs_batch (E : Engine) [DecidableEq E.Fqk] (cfg : String)
    (pvk : PreparedVerifyingKey E) (ts : Nat → Nat)
    (proofs : List (Proof E)) (public_inputs : List (List E.Fr)) :
    List VerifierEvent × Option (Except SynthesisError Bool) :=
  if public_inputs.any (fun pi => pi.length + 1 ≠ pvk.ic.length) then
    ([VerifierEvent.returnMalformed],
     some (Except.error SynthesisError.MalformedVerifyingKey))
  else
    let pi_num := pvk.ic.length - 1
    let proof_num := proofs.length
    match batchCoeffs E ts proof_num with
    | none =>
      (List.replicate proof_num VerifierEvent.sampleRandomness
        ++ [VerifierEvent.panicSample], none)
    | some r =>
      let sum_r := batchSumR E r
      match piScalarsOpt E r public_inputs pi_num proof_num with
      | none =>
        (List.replicate proof_num VerifierEvent.sampleRandomness
          ++ [VerifierEvent.scalarArith, VerifierEvent.panicIndexOutOfBounds], none)
      | some pi_scalars =>
        match get_verifier_kernel cfg pi_num with
        | none =>
          (List.replicate proof_num VerifierEvent.sampleRandomness
            ++ [VerifierEvent.scalarArith, VerifierEvent.scalarArith,
                VerifierEvent.panicInvalidDevice], none)
        | some _kern =>
          let acc_pi := E.g1Add
            (E.g1Mul (pvk.ic.getD 0 E.g1Zero) (E.frToNat sum_r))
            (multiexp E (pvk.ic.drop 1) pi_scalars)
          let acc_y := E.fqkPow pvk.alpha_g1_beta_g2 (E.frToNat (E.frNeg sum_r))
          let acc_c := batchAccDelta E r proofs
          let ml := (r.zip proofs).map fun rp =>
            (E.g1Prepare (E.g1Mul rp.2.a (E.frToNat rp.1)),
             E.g2Prepare (E.g2Neg rp.2.b))
          let parts := ml ++ [(E.g1Prepare acc_c, pvk.delta_g2),
                              (E.g1Prepare acc_pi, pvk.gamma_g2)]
          (List.replicate proof_num VerifierEvent.sampleRandomness
            ++ [VerifierEvent.scalarArith, VerifierEvent.scalarArith,
                VerifierEvent.fetchKernel, VerifierEvent.multiexpWork,
                VerifierEvent.scalarArith, VerifierEvent.scalarArith,
                VerifierEvent.millerLoopWork, VerifierEvent.finalExpWork],
           (E.finalExp (E.millerLoop parts)).map fun f =>
             Except.ok (decide (f = acc_y)))

/-- Value of a `k`-limb decomposition: reading back `natToLimbs` gives
the number modulo the representable range. -/
theorem reprToNat_natToLimbs (k : Nat) : ∀ n, reprToNat (natToLimbs k n) = n % 2 ^ (64 * k) := by
  induction k with
  | zero => intro n; simp [natToLimbs, reprToNat, Nat.mod_one]
  | succ k ih =>
    intro n
    have h64 : 64 * (k + 1) = 64 + 64 * k := by ring
    rw [natToLimbs, reprToNat, ih, h64, pow_add, Nat.mod_mul]

/-- Algebraic facts about an engine that the external library guarantees
and the spec relies on: the point group is a commutative monoid acted on
by scalar multiplication, scalar reprs fit their fixed width, `Fqk`
multiplication is commutative, the field order exceeds `2 ^ 128`, the
repr is at least two limbs wide, and `from_repr` round-trips canonical
values below the order. -/
structure LawfulEngine (E : Engine) : Prop where
  g1_add_assoc : ∀ a b c, E.g1Add (E.g1Add a b) c = E.g1Add a (E.g1Add b c)
  g1_add_comm : ∀ a b, E.g1Add a b = E.g1Add b a
  g1_add_zero : ∀ a, E.g1Add a E.g1Zero = a
  g1_mul_zero : ∀ p, E.g1Mul p 0 = E.g1Zero
  g1_mul_succ : ∀ p n, E.g1Mul p (n + 1) = E.g1Add (E.g1Mul p n) p
  fqk_mul_comm : ∀ a b, E.fqkMul a b = E.fqkMul b a
  frToNat_lt : ∀ x, E.frToNat x < 2 ^ (64 * E.numLimbs)
  two_le_numLimbs : 2 ≤ E.numLimbs
  zero_repr : E.frIntoRepr E.frZero = List.replicate E.numLimbs 0
  order_gt : 2 ^ 128 < E.order
  fromRepr_sound : ∀ l, reprToNat l < E.order →
    E.frFromRepr l = some (E.frOfNat (reprToNat l))
  toNat_ofNat : ∀ n, n < E.order → E.frToNat (E.frOfNat n) = n

/-- Concrete engine used to exercise the embedding on closed inputs: the
point groups are integers under addition, the pairing target is the
integers under multiplication, the scalar field carrier is the integers
below `2 ^ 129` (an order exceeding the 128-bit sample range), reprs are
three 64-bit limbs.  The pairing-specific maps are arbitrary computable
functions: no theorem relies on any property of them. -/
@[reducible] def toy : Engine where
  Fr := Fin (2 ^ 129)
  G1 := Nat
  G2 := Int
  G1P := Nat
  G2P := Int
  Fqk := Int
  numLimbs := 3
  order := 2 ^ 129
  frZero := ⟨0, by positivity⟩
  frAdd := fun a b => ⟨(a.val + b.val) % 2 ^ 129, Nat.mod_lt _ (by positivity)⟩
  frMul := fun a b => ⟨a.val * b.val % 2 ^ 129, Nat.mod_lt _ (by positivity)⟩
  frNeg := fun a => ⟨(2 ^ 129 - a.val) % 2 ^ 129, Nat.mod_lt _ (by positivity)⟩
  frOfNat := fun n => ⟨n % 2 ^ 129, Nat.mod_lt _ (by positivity)⟩
  frIntoRepr := fun x => natToLimbs 3 x.val
  frFromRepr := fun l =>
    if h : reprToNat l < 2 ^ 129 then some ⟨reprToNat l, h⟩ else none
  g1Zero := 0
  g1Add := fun a b => a + b
  g1Mul := fun p n => p * n
  g2Neg := fun x => -x
  g1Prepare := fun x => x
  g2Prepare := fun x => x
  fqkMul := fun a b => a * b
  fqkPow := fun b n => b + (n : Int)
  pairing := fun a b => (a : Int) * b
  millerLoop := fun l => (l.map fun p => (p.1 : Int) * p.2).foldl (· * ·) 1
  finalExp := fun x => some x

/-- Closed verifying key over the toy engine with a single `ic` point. -/
def tvk0 : VerifyingKey toy := ⟨2, 3, 5, 7, [11]⟩

/-- Prepared form of `tvk0`. -/
def tpvk0 : PreparedVerifyingKey toy := prepare_verifying_key toy tvk0

/-- Closed verifying key over the toy engine with two `ic` points. -/
def tvk1 : VerifyingKey toy := ⟨2, 3, 5, 7, [11, 13]⟩

/-- Prepared form of `tvk1`. -/
def tpvk1 : PreparedVerifyingKey toy := prepare_verifying_key toy tvk1

/-- Closed proof triple over the toy engine. -/
def tpf0 : Proof toy := ⟨1, 1, 1⟩

/-- Closed scalar over the toy engine. -/
def tx3 : toy.Fr := toy.frOfNat 3

/-- Closed randomness stream: every 128-bit draw is `9`. -/
def tRand : Nat → Nat := fun _ => 9

/-- The toy engine satisfies every algebraic assumption. -/
theorem toyLawful : LawfulEngine toy := by
  refine ⟨?_, ?_, ?_, ?_, ?_, ?_, ?_, ?_, ?_, ?_, ?_, ?_⟩
  · intro a b c; exact Nat.add_assoc a b c
  · intro a b; exact Nat.add_comm a b
  · intro a; exact Nat.add_zero a
  · intro p; rfl
  · intro p n; exact Nat.mul_succ p n
  · intro a b; exact Int.mul_comm a b
  · intro x
    show reprToNat (natToLimbs 3 x.val) < 2 ^ (64 * 3)
    rw [reprToNat_natToLimbs]
    exact Nat.mod_lt _ (by positivity)
  · decide
  · decide
  · decide
  · intro l h
    refine (dif_pos h).trans (congrArg some (Fin.ext ?_))
    exact (Nat.mod_eq_of_lt h).symm
  · intro n h
    show reprToNat (natToLimbs 3 (n % 2 ^ 129)) = n
    rw [reprToNat_natToLimbs, Nat.mod_eq_of_lt h]
    exact Nat.mod_eq_of_lt (lt_trans h (by norm_num))

theorem zero_g1Add (E : Engine) (L : LawfulEngine E) (a : E.G1) :
    E.g1Add E.g1Zero a = a :=
  (L.g1_add_comm _ _).trans (L.g1_add_zero a)

theorem g1_add_add_comm (E : Engine) (L : LawfulEngine E) (a b c d : E.G1) :
    E.g1Add (E.g1Add a b) (E.g1Add c d) = E.g1Add (E.g1Add a c) (E.g1Add b d) := by
  rw [L.g1_add_assoc, ← L.g1_add_assoc b c d, L.g1_add_comm b c,
    L.g1_add_assoc c b d, ← L.g1_add_assoc]

theorem sumG1_zero (E : Engine) (f : Nat → E.G1) : sumG1 E f 0 = E.g1Zero := rfl

theorem sumG1_succ (E : Engine) (f : Nat → E.G1) (n : Nat) :
    sumG1 E f (n + 1) = E.g1Add (sumG1 E f n) (f n) := by
  unfold sumG1
  rw [List.range_succ, List.foldl_append]
  rfl

theorem sumG1_congr (E : Engine) (f g : Nat → E.G1) (n : Nat)
    (h : ∀ i, i < n → f i = g i) : sumG1 E f n = sumG1 E g n := by
  induction n with
  | zero => rfl
  | succ n ih =>
    rw [sumG1_succ, sumG1_succ, ih fun i hi => h i (Nat.lt_succ_of_lt hi),
      h n (Nat.lt_succ_self n)]

theorem sumG1_const_zero (E : Engine) (L : LawfulEngine E) (n : Nat) :
    sumG1 E (fun _ => E.g1Zero) n = E.g1Zero := by
  induction n with
  | zero => rfl
  | succ n ih => rw [sumG1_succ, ih, L.g1_add_zero]

theorem g1Mul_one (E : Engine) (L : LawfulEngine E) (p : E.G1) :
    E.g1Mul p 1 = p := by
  have h := L.g1_mul_succ p 0
  rw [Nat.zero_add] at h
  rw [h, L.g1_mul_zero, zero_g1Add E L]

theorem g1Mul_two (E : Engine) (L : LawfulEngine E) (p : E.G1) :
    E.g1Mul p 2 = E.g1Add p p := by
  have h := L.g1_mul_succ p 1
  rw [g1Mul_one E L] at h
  exact h

theorem g1Mul_add (E : Engine) (L : LawfulEngine E) (p : E.G1) (a : Nat) :
    ∀ b, E.g1Mul p (a + b) = E.g1Add (E.g1Mul p a) (E.g1Mul p b) := by
  intro b
  induction b with
  | zero => rw [Nat.add_zero, L.g1_mul_zero, L.g1_add_zero]
  | succ b ih =>
    rw [← Nat.add_assoc, L.g1_mul_succ, ih, L.g1_mul_succ, L.g1_add_assoc]

theorem g1Mul_mulNat (E : Engine) (L : LawfulEngine E) (p : E.G1) (a : Nat) :
    ∀ b, E.g1Mul p (a * b) = E.g1Mul (E.g1Mul p a) b := by
  intro b
  induction b with
  | zero => rw [Nat.mul_zero, L.g1_mul_zero, L.g1_mul_zero]
  | succ b ih => rw [Nat.mul_succ, g1Mul_add E L, ih, L.g1_mul_succ]

theorem g1Mul_zero_pt (E : Engine) (L : LawfulEngine E) :
    ∀ n, E.g1Mul E.g1Zero n = E.g1Zero := by
  intro n
  induction n with
  | zero => exact L.g1_mul_zero _
  | succ n ih => rw [L.g1_mul_succ, ih, L.g1_add_zero]

theorem g1Mul_addPt (E : Engine) (L : LawfulEngine E) (x y : E.G1) :
    ∀ n, E.g1Mul (E.g1Add x y) n = E.g1Add (E.g1Mul x n) (E.g1Mul y n) := by
  intro n
  induction n with
  | zero => rw [L.g1_mul_zero, L.g1_mul_zero, L.g1_mul_zero, L.g1_add_zero]
  | succ n ih =>
    rw [L.g1_mul_succ, ih, L.g1_mul_succ, L.g1_mul_succ, g1_add_add_comm E L]

theorem sumG1_add_distrib (E : Engine) (L : LawfulEngine E) (f g : Nat → E.G1) :
    ∀ n, sumG1 E (fun i => E.g1Add (f i) (g i)) n
      = E.g1Add (sumG1 E f n) (sumG1 E g n) := by
  intro n
  induction n with
  | zero => exact (L.g1_add_zero _).symm
  | succ n ih =>
    rw [sumG1_succ, sumG1_succ, sumG1_succ, ih, g1_add_add_comm E L]

theorem sumG1_mulRight (E : Engine) (L : LawfulEngine E) (f : Nat → E.G1)
    (c : Nat) : ∀ n, sumG1 E (fun i => E.g1Mul (f i) c) n
      = E.g1Mul (sumG1 E f n) c := by
  intro n
  induction n with
  | zero => exact (g1Mul_zero_pt E L c).symm
  | succ n ih => rw [sumG1_succ, sumG1_succ, ih, g1Mul_addPt E L]

theorem sumG1_mulNat (E : Engine) (L : LawfulEngine E) (x : E.G1)
    (a : Nat → Nat) : ∀ n, sumG1 E (fun j => E.g1Mul x (a j)) n
      = E.g1Mul x (∑ j ∈ Finset.range n, a j) := by
  intro n
  induction n with
  | zero => rw [Finset.sum_range_zero, L.g1_mul_zero]; rfl
  | succ n ih =>
    rw [sumG1_succ, ih, Finset.sum_range_succ, g1Mul_add E L]

theorem sumG1_peel_first (E : Engine) (L : LawfulEngine E) (f : Nat → E.G1) :
    ∀ n, sumG1 E f (n + 1) = E.g1Add (f 0) (sumG1 E (fun j => f (j + 1)) n) := by
  intro n
  induction n with
  | zero => rw [sumG1_succ, sumG1_zero, sumG1_zero, L.g1_add_zero, zero_g1Add E L]
  | succ n ih =>
    rw [sumG1_succ, ih, L.g1_add_assoc, ← sumG1_succ]

theorem sumG1_split (E : Engine) (L : LawfulEngine E) (f : Nat → E.G1)
    (a : Nat) : ∀ b, sumG1 E f (a + b)
      = E.g1Add (sumG1 E f a) (sumG1 E (fun j => f (a + j)) b) := by
  intro b
  induction b with
  | zero => rw [Nat.add_zero]; exact (L.g1_add_zero _).symm
  | succ b ih =>
    rw [← Nat.add_assoc, sumG1_succ, ih, L.g1_add_assoc, ← sumG1_succ]

theorem sumG1_swap (E : Engine) (L : LawfulEngine E) (g : Nat → Nat → E.G1)
    (n : Nat) : ∀ m, sumG1 E (fun j => sumG1 E (fun i => g i j) n) m
      = sumG1 E (fun i => sumG1 E (fun j => g i j) m) n := by
  intro m
  induction m with
  | zero => exact (sumG1_const_zero E L n).symm
  | succ m ih =>
    rw [sumG1_succ, ih, ← sumG1_add_distrib E L]
    exact sumG1_congr E _ _ n fun i _ => (sumG1_succ E _ m).symm

theorem doubleN_eq (E : Engine) (L : LawfulEngine E) :
    ∀ k (x : E.G1), doubleN E k x = E.g1Mul x (2 ^ k) := by
  intro k
  induction k with
  | zero => intro x; rw [pow_zero, g1Mul_one E L]; rfl
  | succ k ih =>
    intro x
    show doubleN E k (E.g1Add x x) = E.g1Mul x (2 ^ (k + 1))
    rw [ih, ← g1Mul_two E L, ← g1Mul_mulNat E L, pow_succ, Nat.mul_comm]

theorem hornerWin_eq (E : Engine) (L : LawfulEngine E) (W : Nat → E.G1)
    (w : Nat) : ∀ n lo, hornerWin E W w lo n
      = sumG1 E (fun j => E.g1Mul (W (lo + j)) (2 ^ (w * j))) n := by
  intro n
  induction n with
  | zero => intro lo; rfl
  | succ n ih =>
    intro lo
    show E.g1Add (doubleN E w (hornerWin E W w (lo + 1) n)) (W lo) = _
    rw [ih (lo + 1), doubleN_eq E L, ← sumG1_mulRight E L,
      sumG1_peel_first E L (fun j => E.g1Mul (W (lo + j)) (2 ^ (w * j))) n,
      Nat.add_zero, Nat.mul_zero, pow_zero, g1Mul_one E L, L.g1_add_comm]
    refine congrArg (E.g1Add (W lo)) (sumG1_congr E _ _ n fun j _ => ?_)
    rw [← g1Mul_mulNat E L, ← pow_add]
    have h1 : lo + 1 + j = lo + (j + 1) := by omega
    have h2 : w * j + w = w * (j + 1) := by ring
    rw [h1, h2]

theorem combineChunks_eq (E : Engine) (L : LawfulEngine E) (W : Nat → E.G1)
    (w : Nat) : ∀ lens lo, combineChunks E W w lo lens
      = hornerWin E W w lo lens.sum := by
  intro lens
  induction lens with
  | nil => intro lo; rfl
  | cons len rest ih =>
    intro lo
    show E.g1Add (doubleN E (w * len) (combineChunks E W w (lo + len) rest))
      (hornerWin E W w lo len) = _
    rw [ih (lo + len), List.sum_cons, doubleN_eq E L,
      hornerWin_eq E L W w rest.sum (lo + len), hornerWin_eq E L W w len lo,
      hornerWin_eq E L W w (len + rest.sum) lo,
      sumG1_split E L _ len rest.sum, ← sumG1_mulRight E L, L.g1_add_comm]
    refine congrArg (E.g1Add (sumG1 E _ len))
      (sumG1_congr E _ _ rest.sum fun j _ => ?_)
    rw [← g1Mul_mulNat E L, ← pow_add]
    have h1 : lo + len + j = lo + (len + j) := by omega
    have h2 : w * j + w * len = w * (len + j) := by ring
    rw [h1, h2]

theorem chunkLensAux_sum : ∀ fuel m n, 1 ≤ m → n ≤ fuel →
    (chunkLensAux fuel m n).sum = n := by
  intro fuel
  induction fuel with
  | zero =>
    intro m n _ hn
    have : n = 0 := Nat.le_zero.mp hn
    subst this
    rfl
  | succ fuel ih =>
    intro m n hm hn
    show (if n = 0 then [] else if n ≤ m then [n]
      else m :: chunkLensAux fuel m (n - m)).sum = n
    by_cases h0 : n = 0
    · rw [if_pos h0, h0]; rfl
    · rw [if_neg h0]
      by_cases h1 : n ≤ m
      · rw [if_pos h1]; simp
      · rw [if_neg h1, List.sum_cons, ih m (n - m) hm (by omega)]
        omega

theorem chunkLens_sum (m n : Nat) (hm : 1 ≤ m) : (chunkLens m n).sum = n :=
  chunkLensAux_sum n m n hm le_rfl

theorem windowDigit_lt (w j s : Nat) : windowDigit w j s < 2 ^ w :=
  Nat.mod_lt _ (by positivity)

theorem windowDigit_sum (w : Nat) :
    ∀ nw s, s < 2 ^ (w * nw) →
      ∑ j ∈ Finset.range nw, 2 ^ (w * j) * windowDigit w j s = s := by
  intro nw
  induction nw with
  | zero =>
    intro s hs
    rw [Nat.mul_zero, pow_zero, Nat.lt_one_iff] at hs
    rw [hs, Finset.sum_range_zero]
  | succ nw ih =>
    intro s hs
    rw [Finset.sum_range_succ']
    have hpos : 0 < 2 ^ w := by positivity
    have hdiv : s / 2 ^ w < 2 ^ (w * nw) := by
      rw [Nat.div_lt_iff_lt_mul hpos, ← pow_add]
      have : w * nw + w = w * (nw + 1) := by ring
      rw [this]
      exact hs
    have hstep : ∀ j, 2 ^ (w * (j + 1)) * windowDigit w (j + 1) s
        = 2 ^ w * (2 ^ (w * j) * windowDigit w j (s / 2 ^ w)) := by
      intro j
      unfold windowDigit
      have h1 : w * (j + 1) = w + w * j := by ring
      rw [h1, pow_add, Nat.div_div_eq_div_mul s (2 ^ w) (2 ^ (w * j))]
      ring
    rw [Finset.sum_congr rfl fun j _ => hstep j, ← Finset.mul_sum, ih _ hdiv]
    show 2 ^ w * (s / 2 ^ w) + 2 ^ (w * 0) * windowDigit w 0 s = s
    unfold windowDigit
    rw [Nat.mul_zero, pow_zero, Nat.div_one, one_mul]
    exact Nat.div_add_mod s (2 ^ w)

theorem msTableGet_precompute (E : Engine) (points : List E.G1)
    (w k i d : Nat) (hi : k + i < points.length) (hd : d < 2 ^ w) :
    msTableGet E ((precompute_fixed_window E points w).at_point k) i d
      = E.g1Mul (points.getD (k + i) E.g1Zero) d := by
  unfold msTableGet precompute_fixed_window MultiscalarPrecomp.at_point
  simp only [List.getD_eq_getElem?_getD, List.getElem?_drop, List.getElem?_map,
    List.getElem?_eq_getElem hi, List.getElem?_range hd, Option.map_some',
    Option.getD_some]

theorem par_multiscalar_eval (E : Engine) (L : LawfulEngine E)
    (points : List E.G1) (w k numPoints nbits nthreads : Nat)
    (scalars : List Nat) (hw : 1 ≤ w) (ht : 1 ≤ nthreads)
    (hpts : k + numPoints ≤ points.length)
    (hs : ∀ i, i < numPoints → scalars.getD i 0 < 2 ^ nbits) :
    par_multiscalar E nthreads scalars
        ((precompute_fixed_window E points w).at_point k) numPoints nbits
      = sumG1 E
          (fun i => E.g1Mul (points.getD (k + i) E.g1Zero) (scalars.getD i 0))
          numPoints := by
  have hwsize : ((precompute_fixed_window E points w).at_point k).windowSize = w := rfl
  unfold par_multiscalar
  rw [hwsize]
  have hsumlens : ∀ q, (chunkLens ((q + nthreads - 1) / nthreads) q).sum = q := by
    intro q
    by_cases h0 : q = 0
    · rw [h0]; rfl
    · refine chunkLens_sum _ _ ?_
      rw [Nat.le_div_iff_mul_le ht, one_mul]
      omega
  rw [combineChunks_eq E L, hsumlens _, hornerWin_eq E L]
  set nw := (nbits + w - 1) / w with hnw
  have hbits : nbits ≤ w * nw := by
    have hq := Nat.div_add_mod (nbits + w - 1) w
    have hr : (nbits + w - 1) % w < w := Nat.mod_lt _ (by omega)
    rw [← hnw] at hq
    generalize hA : w * nw = A at hq ⊢
    omega
  have hWeq : ∀ j, j < nw →
      windowPartial E ((precompute_fixed_window E points w).at_point k)
          scalars numPoints j
        = sumG1 E
            (fun i => E.g1Mul (points.getD (k + i) E.g1Zero)
              (windowDigit w j (scalars.getD i 0))) numPoints := by
    intro j _
    unfold windowPartial
    rw [hwsize]
    exact sumG1_congr E _ _ numPoints fun i hi =>
      msTableGet_precompute E points w k i _ (by omega) (windowDigit_lt w j _)
  calc
    sumG1 E
        (fun j => E.g1Mul
          (windowPartial E ((precompute_fixed_window E points w).at_point k)
            scalars numPoints (0 + j)) (2 ^ (w * j))) nw
      = sumG1 E
          (fun j => sumG1 E
            (fun i => E.g1Mul
              (E.g1Mul (points.getD (k + i) E.g1Zero)
                (windowDigit w j (scalars.getD i 0)))
              (2 ^ (w * j))) numPoints) nw := by
        refine sumG1_congr E _ _ nw fun j hj => ?_
        rw [Nat.zero_add, hWeq j hj, ← sumG1_mulRight E L]
    _ = sumG1 E
          (fun i => sumG1 E
            (fun j => E.g1Mul (points.getD (k + i) E.g1Zero)
              (windowDigit w j (scalars.getD i 0) * 2 ^ (w * j))) nw)
          numPoints := by
        rw [sumG1_swap E L]
        refine sumG1_congr E _ _ numPoints fun i _ => ?_
        refine sumG1_congr E _ _ nw fun j _ => ?_
        rw [← g1Mul_mulNat E L]
    _ = sumG1 E
          (fun i => E.g1Mul (points.getD (k + i) E.g1Zero) (scalars.getD i 0))
          numPoints := by
        refine sumG1_congr E _ _ numPoints fun i hi => ?_
        rw [sumG1_mulNat E L]
        refine congrArg (E.g1Mul (points.getD (k + i) E.g1Zero)) ?_
        have hb : scalars.getD i 0 < 2 ^ (w * nw) :=
          lt_of_lt_of_le (hs i hi) (Nat.pow_le_pow_right (by omega) hbits)
        rw [Finset.sum_congr rfl fun j _ => Nat.mul_comm _ _]
        exact windowDigit_sum w nw (scalars.getD i 0) hb

theorem reprToNat_replicate_zero : ∀ k, reprToNat (List.replicate k 0) = 0 := by
  intro k
  induction k with
  | zero => rfl
  | succ k ih =>
    rw [List.replicate_succ, reprToNat, ih]
    omega

/-- C8: `prepare_verifying_key` is a deterministic total function computing
the pairing of `alpha_g1` with `beta_g2`, the prepared negations of
`gamma_g2` and `delta_g2`, the prepared originals, a copy of `ic`, and the
fixed-window multiscalar table over `ic`; two preparations of the same
verifying key are the same value. -/
theorem prepare_verifying_key_spec (E : Engine) (vk : VerifyingKey E) :
    (prepare_verifying_key E vk).alpha_g1_beta_g2
        = E.pairing vk.alpha_g1 vk.beta_g2
    ∧ (prepare_verifying_key E vk).neg_gamma_g2
        = E.g2Prepare (E.g2Neg vk.gamma_g2)
    ∧ (prepare_verifying_key E vk).neg_delta_g2
        = E.g2Prepare (E.g2Neg vk.delta_g2)
    ∧ (prepare_verifying_key E vk).gamma_g2 = E.g2Prepare vk.gamma_g2
    ∧ (prepare_verifying_key E vk).delta_g2 = E.g2Prepare vk.delta_g2
    ∧ (prepare_verifying_key E vk).ic = vk.ic
    ∧ (prepare_verifying_key E vk).multiscalar
        = precompute_fixed_window E vk.ic WINDOW_SIZE
    ∧ prepare_verifying_key E vk = prepare_verifying_key E vk :=
  ⟨rfl, rfl, rfl, rfl, rfl, rfl, rfl, rfl⟩

/-- Rounding to `f32` leaves a value below the 24-bit range untouched. -/
theorem f32Shift_eq_zero (n : Nat) (h : n < 2 ^ 24) : f32Shift n = 0 := by
  unfold f32Shift
  cases n with
  | zero => rfl
  | succ m =>
    show f32ShiftAux (m + 1) (m + 1) = 0
    unfold f32ShiftAux
    rw [if_pos h]

/-- The `usize`-to-`f32` cast is exact up to `2 ^ 24`. -/
theorem f32RoundNat_eq_of_le (n : Nat) (h : n ≤ 2 ^ 24) : f32RoundNat n = n := by
  by_cases hlt : n < 2 ^ 24
  · unfold f32RoundNat
    rw [f32Shift_eq_zero n hlt]
    rfl
  · have h24 : n = 2 ^ 24 := by omega
    subst h24
    rfl

/-- Counterexample to C5 as stated: at a point count of `2 ^ 24 + 1` the
`usize`-to-`f32` cast rounds ties-to-even down to `2 ^ 24`, so the `gpu`
branch sizes the kernel to `24`, not to the exact
`ceil(log2(2 ^ 24 + 1)) = 25` the claim asserts. -/
theorem get_verifier_kernel_sizing_cex :
    get_verifier_kernel "gpu" (2 ^ 24 + 1) = some (some ⟨24, false⟩)
    ∧ ceilLog2 (2 ^ 24 + 1) = 25 := ⟨rfl, rfl⟩

/-- C5 (amended): the accelerator selector compares the configuration
string case-insensitively; `auto` and `cpu` select the CPU engine (no
kernel); `gpu` acquires a hardware multiexp kernel whose size is the f32
computation of the log ceiling — equal to the exact
`ceil(log2(point_count))` whenever the point count (passed by the batch
verifier as `pvk.ic.length - 1`) is at most `2 ^ 20`, where the whole f32
pipeline is exact; and every other value aborts the process (`none`)
instead of returning an error value. -/
theorem get_verifier_kernel_spec (cfg : String) (pi_num : Nat) :
    ((toLowerStr cfg = "auto" ∨ toLowerStr cfg = "cpu") →
      get_verifier_kernel cfg pi_num = some none)
    ∧ (toLowerStr cfg = "gpu" →
      ∃ kern : LockedMultiexpKernel, kern.priority = false
        ∧ get_verifier_kernel cfg pi_num = some (some kern))
    ∧ (toLowerStr cfg = "gpu" → pi_num ≤ 2 ^ 20 →
      get_verifier_kernel cfg pi_num = some (some ⟨ceilLog2 pi_num, false⟩))
    ∧ (toLowerStr cfg ≠ "auto" → toLowerStr cfg ≠ "cpu" →
        toLowerStr cfg ≠ "gpu" → get_verifier_kernel cfg pi_num = none)
    ∧ ∀ (E : Engine) (pvk : PreparedVerifyingKey E), toLowerStr cfg = "gpu" →
        pvk.ic.length - 1 ≤ 2 ^ 20 →
        get_verifier_kernel cfg (pvk.ic.length - 1)
          = some (some ⟨ceilLog2 (pvk.ic.length - 1), false⟩) := by
  have hgpu : ∀ m, toLowerStr cfg = "gpu" →
      get_verifier_kernel cfg m
        = some (some ⟨ceilLog2 (f32RoundNat m), false⟩) := by
    intro m h
    unfold get_verifier_kernel
    rw [h]
    rfl
  have hexact : ∀ m, toLowerStr cfg = "gpu" → m ≤ 2 ^ 20 →
      get_verifier_kernel cfg m = some (some ⟨ceilLog2 m, false⟩) := by
    intro m h hm
    rw [hgpu m h, f32RoundNat_eq_of_le m (by omega)]
  refine ⟨?_,
    fun h => ⟨⟨ceilLog2 (f32RoundNat pi_num), false⟩, rfl, hgpu pi_num h⟩,
    hexact pi_num, ?_, fun _ pvk h hm => hexact _ h hm⟩
  · rintro (h | h) <;> (unfold get_verifier_kernel; rw [h]; rfl)
  · intro h1 h2 h3
    unfold get_verifier_kernel
    rw [if_neg h3, if_neg h2, if_neg h1]

/-- Closed instantiation of C5's amended theorem: uppercase `GPU` with a
small in-range count, a kernel acquisition at a count past the exact f32
range, mixed-case `AuTo`, and an invalid value. -/
theorem get_verifier_kernel_spec_witness :
    get_verifier_kernel "GPU" 5 = some (some ⟨ceilLog2 5, false⟩)
    ∧ (∃ kern : LockedMultiexpKernel, kern.priority = false
        ∧ get_verifier_kernel "gpu" (2 ^ 24 + 1) = some (some kern))
    ∧ get_verifier_kernel "AuTo" 7 = some none
    ∧ get_verifier_kernel "quantum" 7 = none :=
  ⟨(get_verifier_kernel_spec "GPU" 5).2.2.1 (by decide) (by decide),
   (get_verifier_kernel_spec "gpu" (2 ^ 24 + 1)).2.1 (by decide),
   (get_verifier_kernel_spec "AuTo" 7).1 (Or.inl (by decide)),
   (get_verifier_kernel_spec "quantum" 7).2.2.2.1 (by decide) (by decide)
     (by decide)⟩

/-- C4: when some public-input vector has the wrong length, batch
verification reports `MalformedVerifyingKey`, and its observable trace is
the bare early return: no randomness sampling, scalar arithmetic,
multiexp, or pairing work happens. -/
theorem verify_proofs_batch_malformed (E : Engine) [DecidableEq E.Fqk]
    (cfg : String) (pvk : PreparedVerifyingKey E) (ts : Nat → Nat)
    (proofs : List (Proof E)) (public_inputs : List (List E.Fr))
    (h : ∃ pi ∈ public_inputs, pi.length + 1 ≠ pvk.ic.length) :
    (verify_proofs_batch E cfg pvk ts proofs public_inputs).2
        = some (Except.error SynthesisError.MalformedVerifyingKey)
    ∧ (verify_proofs_batch E cfg pvk ts proofs public_inputs).1
        = [VerifierEvent.returnMalformed] := by
  have hc : (public_inputs.any fun pi =>
      decide (pi.length + 1 ≠ pvk.ic.length)) = true := by
    simp only [List.any_eq_true, decide_eq_true_eq]
    exact h
  unfold verify_proofs_batch
  rw [if_pos hc]
  exact ⟨rfl, rfl⟩

/-- Closed instantiation of C4's theorem at a two-point key and an
empty public-input vector. -/
theorem verify_proofs_batch_malformed_witness :
    (verify_proofs_batch toy "auto" tpvk1 tRand [tpf0] [[]]).2
        = some (Except.error SynthesisError.MalformedVerifyingKey)
    ∧ (verify_proofs_batch toy "auto" tpvk1 tRand [tpf0] [[]]).1
        = [VerifierEvent.returnMalformed] :=
  verify_proofs_batch_malformed toy "auto" tpvk1 tRand [tpf0] [[]]
    ⟨[], List.mem_singleton.mpr rfl, by decide⟩

/-- C7: each batch coefficient is sampled by embedding a 128-bit draw `t`
into a zero scalar repr with only the two low limbs set (low limb
`t mod 2 ^ 64`, next limb `t div 2 ^ 64`, higher limbs zero); because the
field order exceeds `2 ^ 128` the `from_repr` read-back never fails, and
the resulting field element has canonical value `t`. -/
theorem batch_coefficient_embedding (E : Engine) (L : LawfulEngine E)
    (t : Nat) (ht : t < 2 ^ 128) :
    sampleFr E t = some (E.frOfNat t)
    ∧ E.frToNat (E.frOfNat t) = t
    ∧ ((E.frIntoRepr E.frZero).set 0 (t % 2 ^ 64)).set 1 (t / 2 ^ 64 % 2 ^ 64)
        = t % 2 ^ 64 :: t / 2 ^ 64 :: List.replicate (E.numLimbs - 2) 0 := by
  obtain ⟨k, hk⟩ := Nat.exists_eq_add_of_le L.two_le_numLimbs
  have hk2 : E.numLimbs = k + 2 := by omega
  have hdiv : t / 2 ^ 64 < 2 ^ 64 := by
    rw [Nat.div_lt_iff_lt_mul (by positivity)]
    calc t < 2 ^ 128 := ht
      _ = 2 ^ 64 * 2 ^ 64 := by norm_num
  have hmod : t / 2 ^ 64 % 2 ^ 64 = t / 2 ^ 64 := Nat.mod_eq_of_lt hdiv
  have hel : ((E.frIntoRepr E.frZero).set 0 (t % 2 ^ 64)).set 1 (t / 2 ^ 64 % 2 ^ 64)
      = t % 2 ^ 64 :: t / 2 ^ 64 :: List.replicate (E.numLimbs - 2) 0 := by
    rw [hmod, L.zero_repr, hk2]
    rfl
  have hval : reprToNat (t % 2 ^ 64 :: t / 2 ^ 64 :: List.replicate (E.numLimbs - 2) 0)
      = t := by
    rw [reprToNat, reprToNat, reprToNat_replicate_zero]
    omega
  have htord : t < E.order := lt_trans ht L.order_gt
  refine ⟨?_, L.toNat_ofNat t htord, hel⟩
  unfold sampleFr
  rw [if_neg (by omega : ¬ E.numLimbs ≤ 1), hel,
    L.fromRepr_sound _ (by rw [hval]; exact htord), hval]

/-- Closed instantiation of C7's theorem at the toy engine and `t = 9`. -/
theorem batch_coefficient_embedding_witness :
    sampleFr toy 9 = some (toy.frOfNat 9)
    ∧ toy.frToNat (toy.frOfNat 9) = 9
    ∧ ((toy.frIntoRepr toy.frZero).set 0 (9 % 2 ^ 64)).set 1 (9 / 2 ^ 64 % 2 ^ 64)
        = 9 % 2 ^ 64 :: 9 / 2 ^ 64 :: List.replicate (toy.numLimbs - 2) 0 :=
  batch_coefficient_embedding toy toyLawful 9 (by norm_num)

/-- C3: single-proof verification reports `MalformedVerifyingKey` exactly
when the public-input count plus one differs from the `ic` length, and in
that case its observable trace is the bare early return: no pairing or
multiscalar work happens. -/
theorem verify_proof_malformed_iff (E : Engine) [DecidableEq E.Fqk]
    (nthreads : Nat) (pvk : PreparedVerifyingKey E) (proof : Proof E)
    (public_inputs : List E.Fr) :
    ((verify_proof E nthreads pvk proof public_inputs).2
        = some (Except.error SynthesisError.MalformedVerifyingKey)
      ↔ public_inputs.length + 1 ≠ pvk.ic.length)
    ∧ (public_inputs.length + 1 ≠ pvk.ic.length →
        (verify_proof E nthreads pvk proof public_inputs).1
          = [VerifierEvent.returnMalformed]) := by
  by_cases h : public_inputs.length + 1 ≠ pvk.ic.length
  · refine ⟨⟨fun _ => h, fun _ => ?_⟩, fun _ => ?_⟩ <;>
      (unfold verify_proof; rw [if_pos h])
  · refine ⟨⟨fun hres => ?_, fun hc => absurd hc h⟩, fun hc => absurd hc h⟩
    exfalso
    unfold verify_proof at hres
    rw [if_neg h] at hres
    simp only [Option.map_eq_some'] at hres
    obtain ⟨f, _, hbad⟩ := hres
    exact Except.noConfusion hbad

/-- Closed instantiation of C3's theorem: no inputs against a two-point
key is malformed, and the trace is the bare early return. -/
theorem verify_proof_malformed_iff_witness :
    (verify_proof toy 1 tpvk1 tpf0 []).2
        = some (Except.error SynthesisError.MalformedVerifyingKey)
    ∧ (verify_proof toy 1 tpvk1 tpf0 []).1 = [VerifierEvent.returnMalformed] :=
  ⟨(verify_proof_malformed_iff toy 1 tpvk1 tpf0 []).1.mpr (by decide),
   (verify_proof_malformed_iff toy 1 tpvk1 tpf0 []).2 (by decide)⟩

/-- C9: the multiscalar evaluation is a pure function of its inputs and
does not depend on the worker-thread count — any two thread counts give
the same group element — and therefore `verify_proof` gives identical
results under different pool sizes. -/
theorem par_multiscalar_thread_invariance (E : Engine) (L : LawfulEngine E) :
    (∀ (precomp : MultiscalarPrecomp E.G1) (scalars : List Nat)
        (numPoints nbits n1 n2 : Nat), 1 ≤ n1 → 1 ≤ n2 →
      par_multiscalar E n1 scalars precomp numPoints nbits
        = par_multiscalar E n2 scalars precomp numPoints nbits)
    ∧ ∀ [DecidableEq E.Fqk], ∀ (pvk : PreparedVerifyingKey E) (proof : Proof E)
        (public_inputs : List E.Fr) (n1 n2 : Nat), 1 ≤ n1 → 1 ≤ n2 →
        verify_proof E n1 pvk proof public_inputs
          = verify_proof E n2 pvk proof public_inputs := by
  have hpar : ∀ (precomp : MultiscalarPrecomp E.G1) (scalars : List Nat)
      (numPoints nbits n1 n2 : Nat), 1 ≤ n1 → 1 ≤ n2 →
      par_multiscalar E n1 scalars precomp numPoints nbits
        = par_multiscalar E n2 scalars precomp numPoints nbits := by
    intro precomp scalars numPoints nbits n1 n2 h1 h2
    have key : ∀ nt, 1 ≤ nt →
        par_multiscalar E nt scalars precomp numPoints nbits
          = hornerWin E (fun j => windowPartial E precomp scalars numPoints j)
              precomp.windowSize 0
              ((nbits + precomp.windowSize - 1) / precomp.windowSize) := by
      intro nt hnt
      unfold par_multiscalar
      rw [combineChunks_eq E L]
      congr 1
      by_cases h0 : (nbits + precomp.windowSize - 1) / precomp.windowSize = 0
      · rw [h0]; rfl
      · refine chunkLens_sum _ _ ?_
        rw [Nat.le_div_iff_mul_le hnt, one_mul]
        generalize (nbits + precomp.windowSize - 1) / precomp.windowSize = q at h0 ⊢
        omega
    rw [key n1 h1, key n2 h2]
  refine ⟨hpar, ?_⟩
  intro _ pvk proof public_inputs n1 n2 h1 h2
  unfold verify_proof
  by_cases h : public_inputs.length + 1 ≠ pvk.ic.length
  · rw [if_pos h, if_pos h]
  · rw [if_neg h, if_neg h]
    dsimp only
    rw [hpar (pvk.multiscalar.at_point 1)
        (public_inputs.map fun s => reprToNat (E.frIntoRepr s))
        public_inputs.length (64 * E.numLimbs) n1 n2 h1 h2]

/-- Closed instantiation of C9's theorem: one versus three worker threads
on a two-point multiscalar, and one versus four threads on a full
`verify_proof` call. -/
theorem par_multiscalar_thread_invariance_witness :
    par_multiscalar toy 1 [5, 7] (precompute_fixed_window toy [11, 13] 8) 2 192
      = par_multiscalar toy 3 [5, 7] (precompute_fixed_window toy [11, 13] 8) 2 192
    ∧ verify_proof toy 1 tpvk1 tpf0 [tx3] = verify_proof toy 4 tpvk1 tpf0 [tx3] :=
  ⟨(par_multiscalar_thread_invariance toy toyLawful).1 _ _ 2 192 1 3
      (by decide) (by decide),
   (par_multiscalar_thread_invariance toy toyLawful).2 tpvk1 tpf0 [tx3] 1 4
      (by decide) (by decide)⟩

/-- C1: with matching lengths, single-proof verification returns
`Ok(true)` exactly when the final exponentiation of
`miller_loop(A, B) · miller_loop(C, -delta) · miller_loop(Acc, -gamma)`,
with `Acc = ic[0] + Σ_i public_input_i · ic[i+1]`, equals
`pvk.alpha_beta_pairing`, and `Ok(false)` exactly when that final
exponentiation yields a different value. -/
theorem verify_proof_pairing_spec (E : Engine) [DecidableEq E.Fqk]
    (L : LawfulEngine E) (nthreads : Nat) (pvk : PreparedVerifyingKey E)
    (proof : Proof E) (public_inputs : List E.Fr)
    (ht : 1 ≤ nthreads)
    (htbl : pvk.multiscalar = precompute_fixed_window E pvk.ic WINDOW_SIZE)
    (hlen : public_inputs.length + 1 = pvk.ic.length) :
    ((verify_proof E nthreads pvk proof public_inputs).2 = some (Except.ok true)
      ↔ E.finalExp (verifyCombo E pvk proof public_inputs)
          = some pvk.alpha_g1_beta_g2)
    ∧ ((verify_proof E nthreads pvk proof public_inputs).2 = some (Except.ok false)
      ↔ ∃ f, E.finalExp (verifyCombo E pvk proof public_inputs) = some f
          ∧ f ≠ pvk.alpha_g1_beta_g2) := by
  have hsc : ∀ i, i < public_inputs.length →
      (public_inputs.map fun s => reprToNat (E.frIntoRepr s)).getD i 0
        < 2 ^ (64 * E.numLimbs) := by
    intro i hi
    rw [List.getD_eq_getElem?_getD, List.getElem?_map, List.getElem?_eq_getElem hi]
    exact L.frToNat_lt _
  have hacc : E.g1Add
      (par_multiscalar E nthreads
        (public_inputs.map fun s => reprToNat (E.frIntoRepr s))
        (pvk.multiscalar.at_point 1) public_inputs.length (64 * E.numLimbs))
      (pvk.ic.getD 0 E.g1Zero)
      = verifyAcc E pvk public_inputs := by
    rw [htbl, par_multiscalar_eval E L pvk.ic WINDOW_SIZE 1 public_inputs.length
      (64 * E.numLimbs) nthreads _ (by decide) ht (by omega) hsc]
    unfold verifyAcc
    rw [L.g1_add_comm]
    refine congrArg (E.g1Add (pvk.ic.getD 0 E.g1Zero)) (sumG1_congr E _ _ _ ?_)
    intro i hi
    rw [Nat.add_comm 1 i]
    refine congrArg (E.g1Mul (pvk.ic.getD (i + 1) E.g1Zero)) ?_
    rw [List.getD_eq_getElem?_getD, List.getElem?_map, List.getElem?_eq_getElem hi,
      List.getD_eq_getElem?_getD, List.getElem?_eq_getElem hi]
    rfl
  have hlen' : ¬ (public_inputs.length + 1 ≠ pvk.ic.length) := fun hc => hc hlen
  have hres : (verify_proof E nthreads pvk proof public_inputs).2
      = (E.finalExp (verifyCombo E pvk proof public_inputs)).map
          (fun f => Except.ok (decide (f = pvk.alpha_g1_beta_g2))) := by
    unfold verify_proof
    rw [if_neg hlen']
    dsimp only
    rw [hacc]
    unfold verifyCombo
    rw [L.fqk_mul_comm (E.millerLoop [(E.g1Prepare proof.c, pvk.neg_delta_g2)])
      (E.millerLoop [(E.g1Prepare proof.a, E.g2Prepare proof.b)])]
  rw [hres]
  constructor
  · cases hfe : E.finalExp (verifyCombo E pvk proof public_inputs) with
    | none => simp
    | some f => simp [decide_eq_true_eq]
  · cases hfe : E.finalExp (verifyCombo E pvk proof public_inputs) with
    | none => simp
    | some f =>
      simp only [Option.map_some', Option.some.injEq, Except.ok.injEq,
        decide_eq_false_iff_not]
      constructor
      · intro hne
        exact ⟨f, rfl, hne⟩
      · rintro ⟨f2, hf2, hne⟩
        cases hf2
        exact hne

/-- Closed instantiation of C1's theorem at the toy engine with a
one-point key and no public inputs. -/
theorem verify_proof_pairing_spec_witness :
    ((verify_proof toy 1 tpvk0 tpf0 []).2 = some (Except.ok true)
      ↔ toy.finalExp (verifyCombo toy tpvk0 tpf0 [])
          = some tpvk0.alpha_g1_beta_g2)
    ∧ ((verify_proof toy 1 tpvk0 tpf0 []).2 = some (Except.ok false)
      ↔ ∃ f, toy.finalExp (verifyCombo toy tpvk0 tpf0 []) = some f
          ∧ f ≠ tpvk0.alpha_g1_beta_g2) :=
  verify_proof_pairing_spec toy toyLawful 1 tpvk0 tpf0 [] (by decide) rfl rfl

set_option maxRecDepth 8000


/-- Length preservation of the fallible map. -/
theorem mapOpt_length (f : α → Option β) :
    ∀ (l : List α) (ys : List β), mapOpt f l = some ys → ys.length = l.length := by
  intro l
  induction l with
  | nil => intro ys h; cases h; rfl
  | cons a as ih =>
    intro ys h
    unfold mapOpt at h
    cases hfa : f a with
    | none => rw [hfa] at h; exact absurd h (by simp)
    | some b =>
      rw [hfa] at h
      cases hrest : mapOpt f as with
      | none => rw [hrest] at h; exact absurd h (by simp)
      | some bs =>
        rw [hrest] at h
        cases h
        simp [ih bs hrest]

/-- Fallible map where every step succeeds with a known value. -/
theorem mapOpt_congr_some (f : α → Option β) (g : α → β) :
    ∀ (l : List α), (∀ a ∈ l, f a = some (g a)) → mapOpt f l = some (l.map g) := by
  intro l
  induction l with
  | nil => intro _; rfl
  | cons a as ih =>
    intro h
    unfold mapOpt
    rw [h a (List.mem_cons_self a as), ih fun x hx => h x (List.mem_cons_of_mem a hx)]
    rfl

/-- Splitting a fallible fold over an append. -/
theorem foldlOpt_append (f : β → α → Option β) :
    ∀ (l1 l2 : List α) (b : β),
      foldlOpt f b (l1 ++ l2) = (foldlOpt f b l1).bind fun b2 => foldlOpt f b2 l2 := by
  intro l1
  induction l1 with
  | nil => intro l2 b; rfl
  | cons a l1 ih =>
    intro l2 b
    show (match f b a with
          | none => none
          | some b2 => foldlOpt f b2 (l1 ++ l2))
        = (match f b a with
          | none => none
          | some b2 => foldlOpt f b2 l1).bind fun b2 => foldlOpt f b2 l2
    cases f b a with
    | none => rfl
    | some b2 => exact ih l2 b2

/-- Fallible fold where every step succeeds with a known value. -/
theorem foldlOpt_eq_foldl (f : β → α → Option β) (g : β → α → β) :
    ∀ (l : List α), (∀ b a, a ∈ l → f b a = some (g b a)) →
      ∀ b, foldlOpt f b l = some (l.foldl g b) := by
  intro l
  induction l with
  | nil => intro _ b; rfl
  | cons a as ih =>
    intro h b
    show (match f b a with
          | none => none
          | some b2 => foldlOpt f b2 as) = _
    rw [h b a (List.mem_cons_self a as)]
    exact ih (fun b2 x hx => h b2 x (List.mem_cons_of_mem a hx)) (g b a)

/-- Fallible fold where every step succeeds. -/
theorem foldlOpt_isSome (f : β → α → Option β) :
    ∀ (l : List α), (∀ b a, a ∈ l → (f b a).isSome) →
      ∀ b, (foldlOpt f b l).isSome := by
  intro l
  induction l with
  | nil => intro _ b; rfl
  | cons a as ih =>
    intro h b
    show (match f b a with
          | none => none
          | some b2 => foldlOpt f b2 as).isSome
    cases hfa : f b a with
    | none =>
      have := h b a (List.mem_cons_self a as)
      rw [hfa] at this
      exact absurd this (by simp)
    | some b2 => exact ih (fun b2 x hx => h b2 x (List.mem_cons_of_mem a hx)) b2

/-- With enough public-input vectors of the right length, a `pi_i`
combination succeeds and computes the total fold. -/
theorem piScalarOpt_eq (E : Engine) (r : List E.Fr)
    (public_inputs : List (List E.Fr)) (pvk : PreparedVerifyingKey E)
    (proof_num i : Nat)
    (hchk : ∀ pi ∈ public_inputs, pi.length + 1 = pvk.ic.length)
    (hlen : proof_num ≤ public_inputs.length)
    (hi : i + 1 < pvk.ic.length) :
    piScalarOpt E r public_inputs proof_num i
      = some ((List.range proof_num).foldl
          (fun pi j => E.frAdd pi (E.frMul (r.getD j E.frZero)
            ((public_inputs.getD j []).getD i E.frZero))) E.frZero) := by
  unfold piScalarOpt
  refine foldlOpt_eq_foldl _ _ _ ?_ E.frZero
  intro b j hj
  have hjlt : j < public_inputs.length := lt_of_lt_of_le (List.mem_range.mp hj) hlen
  rw [List.getElem?_eq_getElem hjlt]
  have hilt : i < public_inputs[j].length := by
    have := hchk public_inputs[j] (List.getElem_mem hjlt)
    omega
  show (match public_inputs[j][i]? with
        | none => none
        | some aji => some (E.frAdd b (E.frMul (r.getD j E.frZero) aji))) = _
  rw [List.getElem?_eq_getElem hilt]
  show some _ = some _
  refine congrArg some (congrArg (E.frAdd b) (congrArg (E.frMul _) ?_))
  simp only [List.getD_eq_getElem?_getD, List.getElem?_eq_getElem hjlt,
    Option.getD_some, List.getElem?_eq_getElem hilt]


/-- With enough public-input vectors of the right length, the whole
`pi_scalars` construction succeeds and computes the total folds. -/
theorem piScalarsOpt_eq (E : Engine) (r : List E.Fr)
    (public_inputs : List (List E.Fr)) (pvk : PreparedVerifyingKey E)
    (proof_num : Nat)
    (hchk : ∀ pi ∈ public_inputs, pi.length + 1 = pvk.ic.length)
    (hlen : proof_num ≤ public_inputs.length) :
    piScalarsOpt E r public_inputs (pvk.ic.length - 1) proof_num
      = some ((List.range (pvk.ic.length - 1)).map fun i =>
          E.frToNat ((List.range proof_num).foldl
            (fun pi j => E.frAdd pi (E.frMul (r.getD j E.frZero)
              ((public_inputs.getD j []).getD i E.frZero))) E.frZero)) := by
  unfold piScalarsOpt
  refine mapOpt_congr_some _ _ _ ?_
  intro i hi
  rw [piScalarOpt_eq E r public_inputs pvk proof_num i hchk hlen
    (by have := List.mem_range.mp hi; omega)]
  rfl

/-- C2: with sampled coefficients `r`, all public-input vectors of the
right length and as many of them as proofs, and a recognized accelerator
setting, batch verification returns `Ok(true)` exactly when the final
exponentiation of the single combined miller loop over
`(r_j · a_j, -b_j)` for all `j`, `(Acc_Delta, delta)` and
`(Acc_Gamma, gamma)` equals `Acc_Y = alpha_beta_pairing ^ (-sum_r)`. -/
theorem verify_proofs_batch_spec (E : Engine) [DecidableEq E.Fqk]
    (cfg : String) (pvk : PreparedVerifyingKey E) (ts : Nat → Nat)
    (proofs : List (Proof E)) (public_inputs : List (List E.Fr))
    (r : List E.Fr)
    (hr : batchCoeffs E ts proofs.length = some r)
    (hchk : ∀ pi ∈ public_inputs, pi.length + 1 = pvk.ic.length)
    (hlen : public_inputs.length = proofs.length)
    (hcfg : toLowerStr cfg = "auto" ∨ toLowerStr cfg = "cpu"
      ∨ toLowerStr cfg = "gpu") :
    (verify_proofs_batch E cfg pvk ts proofs public_inputs).2
        = some (Except.ok true)
      ↔ E.finalExp (E.millerLoop (batchParts E pvk r proofs public_inputs))
          = some (batchAccY E pvk r) := by
  have hrlen : r.length = proofs.length := by
    have h := mapOpt_length _ _ _ hr
    rw [List.length_range] at h
    exact h
  have hany : ¬ ((public_inputs.any fun pi =>
      decide (pi.length + 1 ≠ pvk.ic.length)) = true) := by
    intro hc
    rw [List.any_eq_true] at hc
    obtain ⟨pi, hpi, hne⟩ := hc
    rw [decide_eq_true_eq] at hne
    exact hne (hchk pi hpi)
  obtain ⟨k, hk⟩ : ∃ k, get_verifier_kernel cfg (pvk.ic.length - 1) = some k := by
    rcases hcfg with h | h | h <;> (unfold get_verifier_kernel; rw [h])
    · exact ⟨none, rfl⟩
    · exact ⟨none, rfl⟩
    · exact ⟨some ⟨ceilLog2 (f32RoundNat (pvk.ic.length - 1)), false⟩, rfl⟩
  unfold verify_proofs_batch
  rw [if_neg hany]
  dsimp only
  rw [hr]
  dsimp only
  rw [piScalarsOpt_eq E r public_inputs pvk proofs.length hchk (le_of_eq hlen.symm)]
  dsimp only
  rw [hk]
  dsimp only
  unfold batchParts batchAccGamma batchAccDelta batchAccY batchSumR batchPi
  rw [hrlen]
  generalize E.finalExp _ = o
  cases o with
  | none => simp
  | some f => simp [decide_eq_true_eq]


/-- Fallible fold aborting on its first element. -/
theorem foldlOpt_cons_none (f : β → α → Option β) (b : β) (a : α) (l : List α)
    (h : f b a = none) : foldlOpt f b (a :: l) = none := by
  show (match f b a with
        | none => none
        | some b2 => foldlOpt f b2 l) = none
  rw [h]

/-- Fallible map aborting on its first element. -/
theorem mapOpt_cons_none (f : α → Option β) (a : α) (l : List α)
    (h : f a = none) : mapOpt f (a :: l) = none := by
  show (match f a, mapOpt f l with
        | some b, some bs => some (b :: bs)
        | _, _ => none) = none
  rw [h]

/-- When there are fewer public-input vectors than proofs, the first
`pi_i` combination runs off the end of `public_inputs`. -/
theorem piScalarOpt_oob (E : Engine) (r : List E.Fr)
    (public_inputs : List (List E.Fr)) (pvk : PreparedVerifyingKey E)
    (proof_num : Nat)
    (hchk : ∀ pi ∈ public_inputs, pi.length + 1 = pvk.ic.length)
    (hshort : public_inputs.length < proof_num)
    (hic : 1 < pvk.ic.length) :
    piScalarOpt E r public_inputs proof_num 0 = none := by
  unfold piScalarOpt
  have hsplit : List.range proof_num
      = List.range public_inputs.length
        ++ List.map (fun x => public_inputs.length + x)
            (List.range (proof_num - public_inputs.length)) := by
    rw [← List.range_add]
    congr 1
    omega
  rw [hsplit, foldlOpt_append]
  have hfirst : (foldlOpt
      (fun pi j =>
        match public_inputs[j]? with
        | none => none
        | some pubj =>
          match pubj[0]? with
          | none => none
          | some aji => some (E.frAdd pi (E.frMul (r.getD j E.frZero) aji)))
      E.frZero (List.range public_inputs.length)).isSome := by
    refine foldlOpt_isSome _ _ ?_ E.frZero
    intro b j hj
    have hjlt : j < public_inputs.length := List.mem_range.mp hj
    rw [List.getElem?_eq_getElem hjlt]
    have h0 : 0 < public_inputs[j].length := by
      have := hchk _ (List.getElem_mem hjlt)
      omega
    show (match public_inputs[j][0]? with
          | none => none
          | some aji => some (E.frAdd b (E.frMul (r.getD j E.frZero) aji))).isSome
    rw [List.getElem?_eq_getElem h0]
    rfl
  obtain ⟨b, hb⟩ := Option.isSome_iff_exists.mp hfirst
  rw [hb]
  show foldlOpt _ b _ = none
  obtain ⟨kk, hkk⟩ : ∃ kk, proof_num - public_inputs.length = kk + 1 :=
    ⟨proof_num - public_inputs.length - 1, by omega⟩
  rw [hkk, List.range_succ_eq_map, List.map_cons]
  refine foldlOpt_cons_none _ _ _ _ ?_
  have hnone : public_inputs[public_inputs.length + 0]? = none :=
    List.getElem?_eq_none (by omega)
  rw [hnone]

/-- When there are fewer public-input vectors than proofs and at least
one real input point, `pi_scalars` aborts on an out-of-bounds index. -/
theorem piScalarsOpt_oob (E : Engine) (r : List E.Fr)
    (public_inputs : List (List E.Fr)) (pvk : PreparedVerifyingKey E)
    (proof_num : Nat)
    (hchk : ∀ pi ∈ public_inputs, pi.length + 1 = pvk.ic.length)
    (hshort : public_inputs.length < proof_num)
    (hic : 1 < pvk.ic.length) :
    piScalarsOpt E r public_inputs (pvk.ic.length - 1) proof_num = none := by
  unfold piScalarsOpt
  obtain ⟨kk, hkk⟩ : ∃ kk, pvk.ic.length - 1 = kk + 1 :=
    ⟨pvk.ic.length - 2, by omega⟩
  rw [hkk, List.range_succ_eq_map]
  refine mapOpt_cons_none _ _ _ ?_
  rw [piScalarOpt_oob E r public_inputs pvk proof_num hchk hshort hic]
  rfl

/-- C10 (amended): when every supplied public-input vector passes the
eager length check but there are fewer vectors than proofs (and the key
has at least one real input point, and coefficient sampling succeeded),
batch verification panics on an out-of-bounds `public_inputs[j]` index
instead of returning an error: the call aborts (`none`) right after the
randomness sampling and the scalar-combination start. -/
theorem batch_length_mismatch_panics (E : Engine) [DecidableEq E.Fqk]
    (cfg : String) (pvk : PreparedVerifyingKey E) (ts : Nat → Nat)
    (proofs : List (Proof E)) (public_inputs : List (List E.Fr))
    (r : List E.Fr)
    (hr : batchCoeffs E ts proofs.length = some r)
    (hchk : ∀ pi ∈ public_inputs, pi.length + 1 = pvk.ic.length)
    (hshort : public_inputs.length < proofs.length)
    (hic : 1 < pvk.ic.length) :
    (verify_proofs_batch E cfg pvk ts proofs public_inputs).2 = none
    ∧ (verify_proofs_batch E cfg pvk ts proofs public_inputs).1
      = List.replicate proofs.length VerifierEvent.sampleRandomness
        ++ [VerifierEvent.scalarArith, VerifierEvent.panicIndexOutOfBounds] := by
  have hany : ¬ ((public_inputs.any fun pi =>
      decide (pi.length + 1 ≠ pvk.ic.length)) = true) := by
    intro hc
    rw [List.any_eq_true] at hc
    obtain ⟨pi, hpi, hne⟩ := hc
    rw [decide_eq_true_eq] at hne
    exact hne (hchk pi hpi)
  unfold verify_proofs_batch
  rw [if_neg hany]
  dsimp only
  rw [hr]
  dsimp only
  rw [piScalarsOpt_oob E r public_inputs pvk proofs.length hchk hshort hic]
  exact ⟨rfl, rfl⟩

/-- C6 (amended): an accelerator setting outside `auto`, `cpu`, `gpu`
aborts the call at the kernel-fetch step — after the length check,
randomness sampling and the per-index scalar combination, but before any
multiexp, miller-loop, or final-exponentiation work. -/
theorem batch_invalid_device_abort_point (E : Engine) [DecidableEq E.Fqk]
    (cfg : String) (pvk : PreparedVerifyingKey E) (ts : Nat → Nat)
    (proofs : List (Proof E)) (public_inputs : List (List E.Fr))
    (r : List E.Fr)
    (hr : batchCoeffs E ts proofs.length = some r)
    (hchk : ∀ pi ∈ public_inputs, pi.length + 1 = pvk.ic.length)
    (hlen : proofs.length ≤ public_inputs.length)
    (h1 : toLowerStr cfg ≠ "auto") (h2 : toLowerStr cfg ≠ "cpu")
    (h3 : toLowerStr cfg ≠ "gpu") :
    (verify_proofs_batch E cfg pvk ts proofs public_inputs).1
      = List.replicate proofs.length VerifierEvent.sampleRandomness
        ++ [VerifierEvent.scalarArith, VerifierEvent.scalarArith,
            VerifierEvent.panicInvalidDevice]
    ∧ (verify_proofs_batch E cfg pvk ts proofs public_inputs).2 = none := by
  have hany : ¬ ((public_inputs.any fun pi =>
      decide (pi.length + 1 ≠ pvk.ic.length)) = true) := by
    intro hc
    rw [List.any_eq_true] at hc
    obtain ⟨pi, hpi, hne⟩ := hc
    rw [decide_eq_true_eq] at hne
    exact hne (hchk pi hpi)
  have hkern : get_verifier_kernel cfg (pvk.ic.length - 1) = none := by
    unfold get_verifier_kernel
    rw [if_neg h3, if_neg h2, if_neg h1]
  unfold verify_proofs_batch
  rw [if_neg hany]
  dsimp only
  rw [hr]
  dsimp only
  rw [piScalarsOpt_eq E r public_inputs pvk proofs.length hchk hlen]
  dsimp only
  rw [hkern]
  exact ⟨rfl, rfl⟩


/-- Closed instantiation of C2's theorem: one proof, one public input,
the default `auto` accelerator setting, and the sampled coefficient
list `[9]`. -/
theorem verify_proofs_batch_spec_witness :
    (verify_proofs_batch toy "auto" tpvk1 tRand [tpf0] [[tx3]]).2
        = some (Except.ok true)
      ↔ toy.finalExp
          (toy.millerLoop (batchParts toy tpvk1 [toy.frOfNat 9] [tpf0] [[tx3]]))
          = some (batchAccY toy tpvk1 [toy.frOfNat 9]) :=
  verify_proofs_batch_spec toy "auto" tpvk1 tRand [tpf0] [[tx3]]
    [toy.frOfNat 9] (by decide) (by decide) rfl (Or.inl (by decide))

/-- Counterexample to C10 as stated: a call with fewer public-input
vectors than proofs and more than one `ic` point that nevertheless
returns the `MalformedVerifyingKey` error — no out-of-bounds indexing is
reached because the eagerly checked vector has the wrong length. -/
theorem batch_length_mismatch_error_cex :
    ([([] : List toy.Fr)] : List (List toy.Fr)).length
        < ([tpf0, tpf0] : List (Proof toy)).length
    ∧ 1 < tpvk1.ic.length
    ∧ (verify_proofs_batch toy "auto" tpvk1 tRand [tpf0, tpf0] [[]]).2
        = some (Except.error SynthesisError.MalformedVerifyingKey) := by
  refine ⟨by decide, by decide, ?_⟩
  rfl

/-- Closed instantiation of C10's amended theorem: two proofs against one
correctly-sized public-input vector abort on out-of-bounds indexing. -/
theorem batch_length_mismatch_panics_witness :
    (verify_proofs_batch toy "auto" tpvk1 tRand [tpf0, tpf0] [[tx3]]).2 = none
    ∧ (verify_proofs_batch toy "auto" tpvk1 tRand [tpf0, tpf0] [[tx3]]).1
      = List.replicate ([tpf0, tpf0] : List (Proof toy)).length
          VerifierEvent.sampleRandomness
        ++ [VerifierEvent.scalarArith, VerifierEvent.panicIndexOutOfBounds] :=
  batch_length_mismatch_panics toy "auto" tpvk1 tRand [tpf0, tpf0] [[tx3]]
    [toy.frOfNat 9, toy.frOfNat 9] (by decide) (by decide) (by decide) (by decide)

/-- Counterexample to C6 as stated: with the unrecognized setting
`quantum`, the events strictly before the fatal abort already include
randomness sampling and scalar arithmetic, so the fatal failure does not
occur before all verification work. -/
theorem batch_invalid_device_samples_first_cex :
    VerifierEvent.sampleRandomness ∈
      ((verify_proofs_batch toy "quantum" tpvk1 tRand [tpf0] [[tx3]]).1.takeWhile
        fun e => decide (e ≠ VerifierEvent.panicInvalidDevice))
    ∧ VerifierEvent.scalarArith ∈
      ((verify_proofs_batch toy "quantum" tpvk1 tRand [tpf0] [[tx3]]).1.takeWhile
        fun e => decide (e ≠ VerifierEvent.panicInvalidDevice)) := by
  decide

/-- Closed instantiation of C6's amended theorem at the setting
`quantum`. -/
theorem batch_invalid_device_abort_point_witness :
    (verify_proofs_batch toy "quantum" tpvk1 tRand [tpf0] [[tx3]]).1
      = List.replicate ([tpf0] : List (Proof toy)).length
          VerifierEvent.sampleRandomness
        ++ [VerifierEvent.scalarArith, VerifierEvent.scalarArith,
            VerifierEvent.panicInvalidDevice]
    ∧ (verify_proofs_batch toy "quantum" tpvk1 tRand [tpf0] [[tx3]]).2 = none :=
  batch_invalid_device_abort_point toy "quantum" tpvk1 tRand [tpf0] [[tx3]]
    [toy.frOfNat 9] (by decide) (by decide) (by decide) (by decide) (by decide)
    (by decide)

end Groth16
